import Mathlib

/-!
Verification of the discrete-event cluster-scheduling simulator.

This file gives a shallow embedding of the simulator's data model and
operations (Job, Cluster, the scheduling policies and the engine loop) and
proves or refutes the specification's claims about them.

Conventions of the embedding:
- machine integers (u32, u64) are modelled as `Nat`; on all states considered
  here no arithmetic overflows the original width, and where the original
  code can panic (unsigned subtraction underflow, division by zero,
  out-of-bounds indexing, `unwrap` on an empty collection) the embedded
  function returns `Option` with `none` standing for the panic;
- the `hashbrown::HashMap<u32, Job>` of running jobs is modelled as a
  `List Job` keyed by `Job.id`; the order of the list models the (otherwise
  unobservable) iteration order of the hash map.
-/

namespace M2Ord

open List

/-- Simulation clock, `type Clock = u64` in the source. -/
abbrev Clock := Nat

/-- One workload item, mirroring `struct Job` in `src/sim/job.rs`
field for field (in declaration order). -/
structure Job where
  id : Nat
  nodes : Nat
  submit_time : Clock
  schedule_time : Clock
  requested_run_time : Clock
  expected_end : Clock
  scheduled : Bool
  run_time : Clock
deriving DecidableEq

namespace Job

/-- `Job::new` from `src/sim/job.rs`. -/
def new (id nodes : Nat) (submit_time run_time requested_run_time : Clock) : Job :=
  { id := id
    nodes := nodes
    requested_run_time := requested_run_time
    run_time := run_time
    submit_time := submit_time
    scheduled := false
    schedule_time := 0
    expected_end := 0 }

/-- `Job::set_scheduled` from `src/sim/job.rs`: unconditionally sets the
scheduled flag, the schedule time and the expected end. -/
def set_scheduled (j : Job) (clock : Clock) : Job :=
  { j with
    scheduled := true
    schedule_time := clock
    expected_end := clock + j.requested_run_time }

/-- `Job::wait_time_from` from `src/sim/job.rs`. -/
def wait_time_from (j : Job) (clock : Clock) : Clock :=
  clock - j.submit_time

end Job

/-- Insertion into the running-jobs map, modelling
`HashMap::insert(job.id, job)`: if the key is present its value is
replaced in place, otherwise the binding is appended. -/
def hmInsert (m : List Job) (j : Job) : List Job :=
  match m with
  | [] => [j]
  | x :: xs => if x.id = j.id then j :: xs else x :: hmInsert xs j

/-- Removal from the running-jobs map, modelling `HashMap::remove(&k)`:
returns the removed value and the remaining bindings, or `none` when the
key is absent. -/
def hmRemove (m : List Job) (k : Nat) : Option (Job × List Job) :=
  match m with
  | [] => none
  | x :: xs =>
    if x.id = k then some (x, xs)
    else
      match hmRemove xs k with
      | none => none
      | some (j, rest) => some (j, x :: rest)

/-- The cluster resource model, mirroring `struct Cluster` in
`src/sim/cluster.rs`. -/
structure Cluster where
  total_nodes : Nat
  available_nodes : Nat
  used_resources : Nat
  running_jobs : List Job
deriving DecidableEq

/-- Sum of the node counts of a list of jobs. -/
def sumNodes (l : List Job) : Nat := (l.map Job.nodes).sum

namespace Cluster

/-- `Cluster::new` from `src/sim/cluster.rs`. -/
def new (nodes : Nat) : Cluster :=
  { total_nodes := nodes
    available_nodes := nodes
    used_resources := 0
    running_jobs := [] }

/-- `Cluster::schedule_job` from `src/sim/cluster.rs`: refuses (returning
`false`) when the job needs more nodes than are available; otherwise
decrements the available count, marks the job scheduled at `clock` and
inserts it into the running map keyed by its id. -/
def schedule_job (c : Cluster) (job : Job) (clock : Clock) : Cluster × Bool :=
  if c.available_nodes < job.nodes then (c, false)
  else
    let j := job.set_scheduled clock
    ({ c with
        available_nodes := c.available_nodes - job.nodes
        running_jobs := hmInsert c.running_jobs j }, true)

/-- `Cluster::finish_job` from `src/sim/cluster.rs`: a no-op when the id is
not in the running map, otherwise removes the job, returns its nodes to the
available pool and accounts its consumed node-seconds. -/
def finish_job (c : Cluster) (job_id : Nat) : Cluster :=
  match hmRemove c.running_jobs job_id with
  | none => c
  | some (job, rest) =>
    { c with
        available_nodes := c.available_nodes + job.nodes
        used_resources := c.used_resources + job.nodes * job.run_time
        running_jobs := rest }

/-- `Cluster::print_stats` from `src/sim/cluster.rs`, reduced to the values
it computes: `(total_resources, idle, idle_percent)`. `none` models the two
panics of the original: the u64 subtraction `total_resources -
used_resources` underflowing, and the division `idle * 100 /
total_resources` by zero. -/
def print_stats (c : Cluster) (makespan : Clock) : Option (Nat × Nat × Nat) :=
  let total_resources := makespan * c.total_nodes
  if total_resources < c.used_resources then none
  else
    let idle := total_resources - c.used_resources
    if total_resources = 0 then none
    else some (total_resources, idle, idle * 100 / total_resources)

end Cluster

/-- Cluster states reachable from `Cluster::new` by arbitrary interleavings
of `schedule_job` and `finish_job` (claim C1's notion of reachability). -/
inductive Reachable : Cluster → Prop where
  | init (n : Nat) : Reachable (Cluster.new n)
  | sched {c : Cluster} (job : Job) (clock : Clock) :
      Reachable c → Reachable (c.schedule_job job clock).1
  | finish {c : Cluster} (job_id : Nat) :
      Reachable c → Reachable (c.finish_job job_id)

/-- Reachability restricted to runs that never admit a job whose id is
already present in the running map (so the hash-map insert never
overwrites). The engine guarantees this for traces with pairwise-distinct
job ids. -/
inductive SafeReachable : Cluster → Prop where
  | init (n : Nat) : SafeReachable (Cluster.new n)
  | sched {c : Cluster} (job : Job) (clock : Clock) :
      job.id ∉ c.running_jobs.map Job.id →
      SafeReachable c → SafeReachable (c.schedule_job job clock).1
  | finish {c : Cluster} (job_id : Nat) :
      SafeReachable c → SafeReachable (c.finish_job job_id)

/-! ### Scheduling policies (`src/sim/algos.rs`)

Each policy is embedded as a function
`Clock → List Job → Cluster → Option (Option Nat)`: the outer `Option` is
`none` exactly when the original Rust panics (an `unwrap` on an empty
queue, or an unsigned subtraction underflow), and the inner `Option Nat` is
the policy's own `Option<usize>` return value. -/

/-- `FCFS::schedule`: looks only at the head of the queue
(`jobs.first().unwrap()`, a panic on an empty queue) and admits it iff it
fits the available nodes. -/
def FCFS_schedule (_clock : Clock) (jobs : List Job) (cluster : Cluster) :
    Option (Option Nat) :=
  match jobs with
  | [] => none
  | first :: _ =>
    some (if first.nodes ≤ cluster.available_nodes then some 0 else none)

/-- The scan loop of `FF::schedule`: first index (counting from `idx`)
whose job fits `avail` nodes. -/
def ffScan (avail : Nat) : List Job → Nat → Option Nat
  | [], _ => none
  | j :: rest, idx =>
    if j.nodes ≤ avail then some idx else ffScan avail rest (idx + 1)

/-- `FF::schedule`: admits the first job, in queue order, that fits. -/
def FF_schedule (_clock : Clock) (jobs : List Job) (cluster : Cluster) :
    Option (Option Nat) :=
  some (ffScan cluster.available_nodes jobs 0)

/-- Comparison key of `running.sort_unstable_by_key(|job| job.requested_run_time)`. -/
def reqLE (a b : Job) : Prop := a.requested_run_time ≤ b.requested_run_time

instance : DecidableRel reqLE := fun _ _ => Nat.decLe _ _

instance : IsTotal Job reqLE := ⟨fun a b => Nat.le_total a.requested_run_time b.requested_run_time⟩

instance : IsTrans Job reqLE := ⟨fun _ _ _ => Nat.le_trans⟩

/-- The running jobs sorted by requested runtime, modelling
`sort_unstable_by_key` applied to the hash map's value iteration order.
The Rust sort leaves the relative order of equal keys unspecified; the
embedding resolves ties by the iteration order (the list order), which is
what a stable sort does. -/
def sortByReq (l : List Job) : List Job := l.insertionSort reqLE

/-- The reservation loop of `FCFSEasy::schedule`: walk the sorted running
jobs accumulating freed nodes; at the first job where the accumulated
capacity reaches `need`, the window is `expected_end - clock` (`none`
models the u64 underflow panic when `expected_end < clock`); if capacity
is never reached — in particular when no jobs are running — the window
keeps its initialisation value `0`. -/
def reservationWindow (clock : Clock) (need : Nat) (avail : Nat) :
    List Job → Option Clock
  | [] => some 0
  | j :: rest =>
    let avail' := avail + j.nodes
    if need ≤ avail' then
      if clock ≤ j.expected_end then some (j.expected_end - clock) else none
    else reservationWindow clock need avail' rest

/-- The job at which the reservation loop of `FCFSEasy::schedule` breaks:
the first running job, in the sorted order, at which the accumulated
capacity reaches `need`. -/
def breakJob (need : Nat) (avail : Nat) : List Job → Option Job
  | [] => none
  | j :: rest =>
    let avail' := avail + j.nodes
    if need ≤ avail' then some j else breakJob need avail' rest

/-- The backfill loop of `FCFSEasy::schedule`: first job at position ≥ 1
whose requested runtime is strictly below the window and whose node count
fits the currently available nodes. -/
def backfillScan (w : Clock) (avail : Nat) : List Job → Nat → Option Nat
  | [], _ => none
  | j :: rest, idx =>
    if j.requested_run_time < w ∧ j.nodes ≤ avail then some idx
    else backfillScan w avail rest (idx + 1)

/-- `FCFSEasy::schedule`: FCFS when the head fits; otherwise computes the
reservation window over the sorted running jobs and backfills the first
later job that is short enough and fits right now. -/
def FCFSEasy_schedule (clock : Clock) (jobs : List Job) (cluster : Cluster) :
    Option (Option Nat) :=
  match jobs with
  | [] => none
  | first :: rest =>
    if first.nodes ≤ cluster.available_nodes then some (some 0)
    else
      match reservationWindow clock first.nodes cluster.available_nodes
          (sortByReq cluster.running_jobs) with
      | none => none
      | some w => some (backfillScan w cluster.available_nodes rest 1)

/-! ### Events and their ordering (`src/sim/mod.rs`) -/

/-- `enum Event`: an arrival carrying the job, or a completion carrying the
job id (variants in source declaration order). -/
inductive Event where
  | newJob (j : Job)
  | jobFinished (id : Nat)
deriving DecidableEq

/-- The manual `impl Ord for Job`: compares ids only. -/
def jobCmp (a b : Job) : Ordering := compare a.id b.id

/-- The manual `impl Ord for Event`: a `NewJob` is greater than any
`JobFinished`; within a variant, jobs and ids compare by id. -/
def eventCmp : Event → Event → Ordering
  | .newJob _, .jobFinished _ => .gt
  | .jobFinished _, .newJob _ => .lt
  | .newJob a, .newJob b => jobCmp a b
  | .jobFinished a, .jobFinished b => compare a b

/-- The ordering of the `(Clock, Event)` pairs stored in the event heap:
Rust tuples compare lexicographically, so timestamps first, then the
manual `Event` order. -/
def timedEventCmp (x y : Clock × Event) : Ordering :=
  (compare x.1 y.1).then (eventCmp x.2 y.2)

/-- `compare` of the derived `PartialOrd` on `bool` (`false < true`). -/
def boolCmp (a b : Bool) : Ordering :=
  match a, b with
  | false, true => .lt
  | true, false => .gt
  | _, _ => .eq

/-- The derived `PartialOrd` on `Job` (`#[derive(PartialOrd)]`):
lexicographic over the fields in declaration order, ignoring the manual
`PartialEq`/`Ord` impls. All fields are totally ordered, so the derived
partial comparison is total and is modelled as an `Ordering`. -/
def jobFieldCmp (a b : Job) : Ordering :=
  (compare a.id b.id).then
    ((compare a.nodes b.nodes).then
      ((compare a.submit_time b.submit_time).then
        ((compare a.schedule_time b.schedule_time).then
          ((compare a.requested_run_time b.requested_run_time).then
            ((compare a.expected_end b.expected_end).then
              ((boolCmp a.scheduled b.scheduled).then
                (compare a.run_time b.run_time)))))))

/-- The derived `PartialOrd` on `Event` (`#[derive(PartialOrd)]`): compares
the variant discriminants in declaration order (`NewJob` before
`JobFinished`), then the payloads with their derived orders. -/
def eventDerivedCmp : Event → Event → Ordering
  | .newJob _, .jobFinished _ => .lt
  | .jobFinished _, .newJob _ => .gt
  | .newJob a, .newJob b => jobFieldCmp a b
  | .jobFinished a, .jobFinished b => compare a b

/-! ### The simulation engine (`src/sim/mod.rs`, `Engine::run`) -/

/-- Selection of the minimum element under `timedEventCmp` together with
the remaining elements, modelling `MinMaxHeap::pop_min` on the heap's
contents. Among elements comparing equal the earliest is kept. -/
def selectMin (x : Clock × Event) :
    List (Clock × Event) → (Clock × Event) × List (Clock × Event)
  | [] => (x, [])
  | y :: ys =>
    if timedEventCmp y x = .lt then
      let r := selectMin y ys
      (r.1, x :: r.2)
    else
      let r := selectMin x ys
      (r.1, y :: r.2)

/-- `pop_min` on the event heap: `none` on an empty heap (where the
engine's `unwrap` would panic). -/
def popMin : List (Clock × Event) → Option ((Clock × Event) × List (Clock × Event))
  | [] => none
  | x :: xs => some (selectMin x xs)

/-- `Vec::swap_remove(i)`: removes index `i` by moving the last element
into its place. -/
def swapRemove (l : List Job) (i : Nat) : List Job :=
  match l.getLast? with
  | none => []
  | some last => (l.set i last).dropLast

/-- The engine state carried around `Engine::run`'s main loop: the event
heap, the pending queue, the cluster and the simulation clock. -/
structure EngState where
  events : List (Clock × Event)
  queue : List Job
  cluster : Cluster
  clock : Clock
deriving DecidableEq

/-- The drain phase of `Engine::run`: while the queue is non-empty, ask
the policy for an index; on `Some(index)` swap-remove that job, push its
completion event at `clock + run_time` and admit it into the cluster; stop
when the policy returns `None`. The outer `none` models a panic (inside
the policy, or `swap_remove` on an out-of-range index). -/
def drain (sched : Clock → List Job → Cluster → Option (Option Nat)) (clock : Clock)
    (queue : List Job) (cluster : Cluster) (events : List (Clock × Event)) :
    Option (List Job × Cluster × List (Clock × Event)) :=
  if hq : queue = [] then some (queue, cluster, events)
  else
    match sched clock queue cluster with
    | none => none
    | some none => some (queue, cluster, events)
    | some (some i) =>
      if hi : i < queue.length then
        let job := queue.get ⟨i, hi⟩
        drain sched clock (swapRemove queue i) (cluster.schedule_job job clock).1
          (events ++ [(clock + job.run_time, Event.jobFinished job.id)])
      else none
termination_by queue.length
decreasing_by
  simp only [swapRemove]
  cases hql : queue.getLast? with
  | none => exact absurd (List.getLast?_eq_none_iff.mp hql) hq
  | some last =>
    have hpos : 0 < queue.length := List.length_pos.mpr hq
    simp [List.length_dropLast, List.length_set]
    omega

/-- Result of running the engine with bounded fuel: normal termination
with the final state and the timestamps of all popped events in pop
order, a panic, or fuel exhaustion. -/
inductive RunResult where
  | finished (s : EngState) (popped : List Clock)
  | panicked
  | outOfFuel
deriving DecidableEq

/-- The main loop of `Engine::run` (fuelled): while the event heap or the
pending queue is non-empty, run the drain phase, pop the minimum event,
advance the clock to its timestamp and apply it (arrival: push the job
onto the queue; completion: release it from the cluster). `popped`
accumulates the popped timestamps. -/
def runF (sched : Clock → List Job → Cluster → Option (Option Nat)) :
    Nat → EngState → List Clock → RunResult
  | 0, _, _ => .outOfFuel
  | fuel + 1, s, popped =>
    if s.events = [] ∧ s.queue = [] then .finished s popped
    else
      match drain sched s.clock s.queue s.cluster s.events with
      | none => .panicked
      | some (q, cl, ev) =>
        match popMin ev with
        | none => .panicked
        | some ((t, e), rest) =>
          match e with
          | .newJob j => runF sched fuel ⟨rest, q ++ [j], cl, t⟩ (popped ++ [t])
          | .jobFinished id => runF sched fuel ⟨rest, q, cl.finish_job id, t⟩ (popped ++ [t])

/-- The jobs carried by the arrival events of a heap. -/
def newJobs (ev : List (Clock × Event)) : List Job :=
  ev.filterMap (fun te =>
    match te.2 with
    | .newJob j => some j
    | .jobFinished _ => none)

/-- The job ids carried by the completion events of a heap. -/
def finishedIds (ev : List (Clock × Event)) : List Nat :=
  ev.filterMap (fun te =>
    match te.2 with
    | .newJob _ => none
    | .jobFinished id => some id)

/-- Termination measure of the main loop: an arrival is popped once and
its job is then drained once (weight 2), a completion is popped once
(weight 1), a queued job is drained once (weight 1). -/
def engineMeasure (s : EngState) : Nat :=
  2 * (newJobs s.events).length + (finishedIds s.events).length + s.queue.length

/-- Inductive invariant of the main loop. -/
structure Inv (s : EngState) : Prop where
  capacity : s.cluster.available_nodes + sumNodes s.cluster.running_jobs
      = s.cluster.total_nodes
  ids_nodup : ((s.queue.map Job.id) ++ ((newJobs s.events).map Job.id)
      ++ (s.cluster.running_jobs.map Job.id)).Nodup
  fin_perm : (finishedIds s.events).Perm (s.cluster.running_jobs.map Job.id)
  queue_fit : ∀ j ∈ s.queue, j.nodes ≤ s.cluster.total_nodes
  ev_fit : ∀ j ∈ newJobs s.events, j.nodes ≤ s.cluster.total_nodes
  clock_le : ∀ te ∈ s.events, s.clock ≤ te.1

/-- Contract a policy must satisfy for the engine to run to completion:
it does not panic on a non-empty queue, any index it returns is in range
and the job there fits the available nodes, and on a wholly idle cluster
it admits something from a non-empty queue of fitting jobs. -/
structure SchedOK (sched : Clock → List Job → Cluster → Option (Option Nat)) : Prop where
  no_panic : ∀ c q cl, q ≠ [] → sched c q cl ≠ none
  valid : ∀ c q cl i, sched c q cl = some (some i) →
      ∃ h : i < q.length, (q.get ⟨i, h⟩).nodes ≤ cl.available_nodes
  progress : ∀ c q cl, q ≠ [] → cl.available_nodes = cl.total_nodes →
      (∀ j ∈ q, j.nodes ≤ cl.total_nodes) → sched c q cl ≠ some none

/-- A well-formed loaded trace: only arrival events, pairwise-distinct job
ids, and every job fits the cluster (the loader drops the rest). -/
def WellFormedLoad (total : Nat) (ev : List (Clock × Event)) : Prop :=
  finishedIds ev = [] ∧ (∀ j ∈ newJobs ev, j.nodes ≤ total)
    ∧ ((newJobs ev).map Job.id).Nodup

/-- The engine state right after loading: the arrival events, an empty
queue, a fresh cluster and clock 0. -/
def initState (total : Nat) (ev : List (Clock × Event)) : EngState :=
  ⟨ev, [], Cluster.new total, 0⟩

/-- The statistics aggregation at the end of `Engine::run`, on the
recorded wait times: sorts them and returns
`(total_wait, median_wait, min_wait, max_wait)`. `none` models the panics
on an empty collection (`wait_times[wait_times.len() / 2]` out of bounds
and `first()/last().unwrap()`). The floating-point average is omitted. -/
def aggregateWaits (wait_times : List Nat) : Option (Nat × Nat × Nat × Nat) :=
  match wait_times.insertionSort (· ≤ ·) with
  | [] => none
  | x :: xs =>
    some ((x :: xs).sum, (x :: xs).getD ((x :: xs).length / 2) 0, x,
      (x :: xs).getLast (List.cons_ne_nil x xs))

lemma hmInsert_of_fresh (m : List Job) (j : Job) (h : j.id ∉ m.map Job.id) :
    hmInsert m j = m ++ [j] := by
  induction m with
  | nil => rfl
  | cons x xs ih =>
    simp only [List.map_cons, List.mem_cons] at h
    push_neg at h
    have hne : ¬ x.id = j.id := fun hx => h.1 hx.symm
    simp only [hmInsert, if_neg hne, List.cons_append]
    rw [ih h.2]

lemma hmRemove_perm : ∀ {m : List Job} {k : Nat} {j : Job} {rest : List Job},
    hmRemove m k = some (j, rest) → j.id = k ∧ m.Perm (j :: rest) := by
  intro m
  induction m with
  | nil => intro k j rest h; simp [hmRemove] at h
  | cons x xs ih =>
    intro k j rest h
    simp only [hmRemove] at h
    by_cases hx : x.id = k
    · rw [if_pos hx] at h
      simp only [Option.some.injEq, Prod.mk.injEq] at h
      obtain ⟨rfl, rfl⟩ := h
      exact ⟨hx, List.Perm.refl _⟩
    · rw [if_neg hx] at h
      match hrec : hmRemove xs k with
      | none => rw [hrec] at h; simp at h
      | some (j', rest') =>
        rw [hrec] at h
        simp only [Option.some.injEq, Prod.mk.injEq] at h
        obtain ⟨rfl, rfl⟩ := h
        obtain ⟨hid, hperm⟩ := ih hrec
        exact ⟨hid, (hperm.cons x).trans (List.Perm.swap j' x rest')⟩

lemma hmRemove_isSome_of_mem : ∀ {m : List Job} {k : Nat},
    k ∈ m.map Job.id → (hmRemove m k).isSome := by
  intro m
  induction m with
  | nil => intro k h; simp at h
  | cons x xs ih =>
    intro k h
    by_cases hx : x.id = k
    · simp [hmRemove, hx]
    · simp only [List.map_cons, List.mem_cons] at h
      rcases h with h | h
      · exact absurd h.symm hx
      · have hs := ih h
        simp only [hmRemove, if_neg hx]
        match hrec : hmRemove xs k with
        | none => rw [hrec] at hs; simp at hs
        | some (j, rest) => simp

lemma sumNodes_perm {l₁ l₂ : List Job} (h : l₁.Perm l₂) :
    sumNodes l₁ = sumNodes l₂ :=
  (h.map Job.nodes).sum_eq

lemma sumNodes_append (l₁ l₂ : List Job) :
    sumNodes (l₁ ++ l₂) = sumNodes l₁ + sumNodes l₂ := by
  simp [sumNodes]

/-- The capacity invariant holds for all overwrite-free reachable states. -/
lemma safe_capacity {c : Cluster} (h : SafeReachable c) :
    c.available_nodes + sumNodes c.running_jobs = c.total_nodes := by
  induction h with
  | init n => simp [Cluster.new, sumNodes]
  | @sched c job clock hfresh _ ih =>
    by_cases hfit : c.available_nodes < job.nodes
    · simp [Cluster.schedule_job, hfit, ih]
    · have hfresh' : (job.set_scheduled clock).id ∉ c.running_jobs.map Job.id := hfresh
      have hle : job.nodes ≤ c.available_nodes := Nat.not_lt.mp hfit
      simp only [Cluster.schedule_job, if_neg hfit]
      show c.available_nodes - job.nodes
          + sumNodes (hmInsert c.running_jobs (job.set_scheduled clock)) = c.total_nodes
      rw [hmInsert_of_fresh _ _ hfresh', sumNodes_append]
      have hone : sumNodes [job.set_scheduled clock] = job.nodes := by
        simp [sumNodes, Job.set_scheduled]
      rw [hone]
      omega
  | @finish c job_id _ ih =>
    match hrem : hmRemove c.running_jobs job_id with
    | none => simp [Cluster.finish_job, hrem, ih]
    | some (job, rest) =>
      obtain ⟨_, hperm⟩ := hmRemove_perm hrem
      have hsum : sumNodes c.running_jobs = job.nodes + sumNodes rest := by
        rw [sumNodes_perm hperm]
        simp [sumNodes]
      simp only [Cluster.finish_job, hrem]
      omega

/-- C1 (counterexample): the capacity invariant as claimed — over ALL
sequences of `schedule_job`/`finish_job` from `Cluster::new` — fails: on a
4-node cluster, scheduling a 2-node job with id 1 and then a 1-node job
with the same id 1 makes the hash-map insert overwrite the first job, and
`available_nodes + Σ nodes(running) = 1 + 1 ≠ 4 = total_nodes`. -/
theorem C1_capacity_cex :
    Reachable (((Cluster.new 4).schedule_job (Job.new 1 2 0 3 3) 0).1.schedule_job
      (Job.new 1 1 0 3 3) 0).1 ∧
    (((Cluster.new 4).schedule_job (Job.new 1 2 0 3 3) 0).1.schedule_job
        (Job.new 1 1 0 3 3) 0).1.available_nodes
      + sumNodes (((Cluster.new 4).schedule_job (Job.new 1 2 0 3 3) 0).1.schedule_job
        (Job.new 1 1 0 3 3) 0).1.running_jobs
      ≠ (((Cluster.new 4).schedule_job (Job.new 1 2 0 3 3) 0).1.schedule_job
        (Job.new 1 1 0 3 3) 0).1.total_nodes :=
  ⟨Reachable.sched _ _ (Reachable.sched _ _ (Reachable.init 4)), by decide⟩

/-- C1 (amended): for every cluster state reachable from `Cluster::new n`
by `schedule_job`/`finish_job` sequences in which no admitted job's id is
already in the running map (which the engine guarantees for traces with
pairwise-distinct job ids), `available_nodes` plus the sum of the node
counts of the running jobs equals `total_nodes`. -/
theorem C1_capacity_invariant (c : Cluster) (h : SafeReachable c) :
    c.available_nodes + sumNodes c.running_jobs = c.total_nodes :=
  safe_capacity h

/-- C1 witness: the amended invariant evaluated on a concrete reachable
state (a 4-node cluster after admitting one 2-node job and finishing an
absent id). -/
theorem C1_capacity_invariant_witness :
    (((Cluster.new 4).schedule_job (Job.new 1 2 0 3 3) 0).1.finish_job 9).available_nodes
      + sumNodes (((Cluster.new 4).schedule_job (Job.new 1 2 0 3 3) 0).1.finish_job 9).running_jobs
      = (((Cluster.new 4).schedule_job (Job.new 1 2 0 3 3) 0).1.finish_job 9).total_nodes :=
  C1_capacity_invariant _
    (SafeReachable.finish 9 (SafeReachable.sched _ _ (by decide) (SafeReachable.init 4)))

/-- C3 (counterexample): `Job::set_scheduled` called on an already-scheduled
job does not fail: it returns normally and silently overwrites both
`schedule_time` (2 becomes 7) and `expected_end` (5 becomes 10). -/
theorem C3_no_double_admission_cex :
    ((Job.new 1 2 0 3 3).set_scheduled 2).scheduled = true ∧
    (((Job.new 1 2 0 3 3).set_scheduled 2).set_scheduled 7).schedule_time = 7 ∧
    (((Job.new 1 2 0 3 3).set_scheduled 2).set_scheduled 7).schedule_time
      ≠ ((Job.new 1 2 0 3 3).set_scheduled 2).schedule_time ∧
    (((Job.new 1 2 0 3 3).set_scheduled 2).set_scheduled 7).expected_end
      ≠ ((Job.new 1 2 0 3 3).set_scheduled 2).expected_end := by
  decide

/-- C3 (amended): `Job::set_scheduled` on an already-scheduled job does not
assert or error; it unconditionally overwrites, leaving the job scheduled
with `schedule_time = clock` and `expected_end = clock + requested_run_time`
(`Cluster::schedule_job` likewise re-admits such a job, overwriting its
entry in the running map, as the C1 counterexample shows). -/
theorem C3_no_double_admission_amended (j : Job) (clock : Clock)
    (h : j.scheduled = true) :
    (j.set_scheduled clock).scheduled = true ∧
    (j.set_scheduled clock).schedule_time = clock ∧
    (j.set_scheduled clock).expected_end = clock + j.requested_run_time :=
  ⟨rfl, rfl, rfl⟩

/-- C3 witness: the amended statement evaluated on a concrete
already-scheduled job. -/
theorem C3_no_double_admission_amended_witness :
    (((Job.new 1 2 0 3 3).set_scheduled 2).set_scheduled 7).scheduled = true ∧
    (((Job.new 1 2 0 3 3).set_scheduled 2).set_scheduled 7).schedule_time = 7 ∧
    (((Job.new 1 2 0 3 3).set_scheduled 2).set_scheduled 7).expected_end
      = 7 + ((Job.new 1 2 0 3 3).set_scheduled 2).requested_run_time :=
  C3_no_double_admission_amended ((Job.new 1 2 0 3 3).set_scheduled 2) 7 (by decide)

/-- C4 (confirmed): the order on `(Clock, Event)` pairs used by the event
heap's minimum extraction compares timestamps first; at equal timestamps
every completion orders strictly before every arrival; and two events of
the same kind at the same timestamp order by job id. -/
theorem C4_event_ordering (t1 t2 : Clock) (e1 e2 : Event) (j1 j2 : Job) (a b : Nat) :
    (t1 < t2 → timedEventCmp (t1, e1) (t2, e2) = .lt) ∧
    timedEventCmp (t1, Event.jobFinished a) (t1, Event.newJob j1) = .lt ∧
    timedEventCmp (t1, Event.newJob j1) (t1, Event.newJob j2) = compare j1.id j2.id ∧
    timedEventCmp (t1, Event.jobFinished a) (t1, Event.jobFinished b) = compare a b := by
  have hself : compare t1 t1 = Ordering.eq := Nat.compare_eq_eq.mpr rfl
  refine ⟨fun h => ?_, ?_, ?_, ?_⟩
  · simp [timedEventCmp, Nat.compare_eq_lt.mpr h, Ordering.then]
  · simp [timedEventCmp, hself, eventCmp, Ordering.then]
  · simp [timedEventCmp, hself, eventCmp, jobCmp, Ordering.then]
  · simp [timedEventCmp, hself, eventCmp, Ordering.then]

/-- C4 witness: the ordering properties evaluated at concrete events. -/
theorem C4_event_ordering_witness :
    timedEventCmp (3, Event.newJob (Job.new 1 2 0 3 3)) (5, Event.jobFinished 9) = .lt ∧
    timedEventCmp (5, Event.jobFinished 9) (5, Event.newJob (Job.new 1 2 0 3 3)) = .lt ∧
    timedEventCmp (5, Event.newJob (Job.new 1 2 0 3 3)) (5, Event.newJob (Job.new 4 2 0 3 3))
      = compare 1 4 ∧
    timedEventCmp (5, Event.jobFinished 9) (5, Event.jobFinished 2) = compare 9 2 := by
  have h := C4_event_ordering 3 5 (Event.newJob (Job.new 1 2 0 3 3)) (Event.jobFinished 9)
    (Job.new 1 2 0 3 3) (Job.new 4 2 0 3 3) 9 2
  have h5 := C4_event_ordering 5 5 (Event.newJob (Job.new 1 2 0 3 3)) (Event.jobFinished 9)
    (Job.new 1 2 0 3 3) (Job.new 4 2 0 3 3) 9 2
  exact ⟨h.1 (by decide), h5.2.1, h5.2.2.1, h5.2.2.2⟩

/-- C10 (counterexample): the derived `PartialOrd` on `Event` orders by
variant declaration order (`NewJob` before `JobFinished`), while the manual
`Ord` puts every `NewJob` after every `JobFinished`: on a mixed pair the
two comparisons disagree. -/
theorem C10_ord_consistency_cex :
    eventDerivedCmp (Event.newJob (Job.new 1 1 0 3 3)) (Event.jobFinished 5) = .lt ∧
    eventCmp (Event.newJob (Job.new 1 1 0 3 3)) (Event.jobFinished 5) = .gt ∧
    eventDerivedCmp (Event.newJob (Job.new 1 1 0 3 3)) (Event.jobFinished 5)
      ≠ eventCmp (Event.newJob (Job.new 1 1 0 3 3)) (Event.jobFinished 5) := by
  decide

/-- C10 (amended): the manual `Ord` and the derived `PartialOrd` on `Event`
agree on pairs of `JobFinished` events, and on pairs of `NewJob` events
whose jobs have distinct ids; on mixed pairs they are exactly reversed
(derived: `NewJob` first; manual: `JobFinished` first). (For `NewJob`
pairs with equal ids they can also disagree, since the derived order reads
the remaining `Job` fields while the manual order stops at the id.) -/
theorem C10_ord_consistency_amended (a b : Nat) (j1 j2 : Job) (h : j1.id ≠ j2.id) :
    eventDerivedCmp (Event.jobFinished a) (Event.jobFinished b)
      = eventCmp (Event.jobFinished a) (Event.jobFinished b) ∧
    eventDerivedCmp (Event.newJob j1) (Event.newJob j2)
      = eventCmp (Event.newJob j1) (Event.newJob j2) ∧
    eventDerivedCmp (Event.newJob j1) (Event.jobFinished a) = .lt ∧
    eventCmp (Event.newJob j1) (Event.jobFinished a) = .gt := by
  refine ⟨rfl, ?_, rfl, rfl⟩
  show jobFieldCmp j1 j2 = jobCmp j1 j2
  unfold jobFieldCmp jobCmp
  rcases Nat.lt_trichotomy j1.id j2.id with hlt | heq | hgt
  · rw [Nat.compare_eq_lt.mpr hlt]; rfl
  · exact absurd heq h
  · rw [Nat.compare_eq_gt.mpr hgt]; rfl

/-- C10 witness: the amended agreement evaluated at concrete events. -/
theorem C10_ord_consistency_amended_witness :
    eventDerivedCmp (Event.jobFinished 4) (Event.jobFinished 6)
      = eventCmp (Event.jobFinished 4) (Event.jobFinished 6) ∧
    eventDerivedCmp (Event.newJob (Job.new 1 1 0 3 3)) (Event.newJob (Job.new 2 9 9 9 9))
      = eventCmp (Event.newJob (Job.new 1 1 0 3 3)) (Event.newJob (Job.new 2 9 9 9 9)) ∧
    eventDerivedCmp (Event.newJob (Job.new 1 1 0 3 3)) (Event.jobFinished 4) = .lt ∧
    eventCmp (Event.newJob (Job.new 1 1 0 3 3)) (Event.jobFinished 4) = .gt :=
  C10_ord_consistency_amended 4 6 (Job.new 1 1 0 3 3) (Job.new 2 9 9 9 9) (by decide)

lemma ffScan_some_spec : ∀ (avail : Nat) (l : List Job) (idx i : Nat),
    ffScan avail l idx = some i →
    idx ≤ i ∧ ∃ j, l.get? (i - idx) = some j ∧ j.nodes ≤ avail ∧
      ∀ m, m < i - idx → ∀ jm, l.get? m = some jm → ¬ jm.nodes ≤ avail := by
  intro avail l
  induction l with
  | nil => intro idx i h; simp [ffScan] at h
  | cons j rest ih =>
    intro idx i h
    by_cases hfit : j.nodes ≤ avail
    · simp only [ffScan, if_pos hfit, Option.some.injEq] at h
      subst h
      exact ⟨Nat.le_refl _, j, by simp, hfit, fun m hm => by omega⟩
    · simp only [ffScan, if_neg hfit] at h
      obtain ⟨hle, j', hget, hfit', hmin⟩ := ih (idx + 1) i h
      refine ⟨by omega, j', ?_, hfit', ?_⟩
      · have : i - idx = (i - (idx + 1)) + 1 := by omega
        rw [this]
        simpa using hget
      · intro m hm jm hgm
        match m, hgm with
        | 0, hgm =>
          simp only [List.get?_cons_zero, Option.some.injEq] at hgm
          subst hgm; exact hfit
        | m' + 1, hgm =>
          simp only [List.get?_cons_succ] at hgm
          exact hmin m' (by omega) jm hgm

lemma ffScan_isSome : ∀ (avail : Nat) (l : List Job) (idx : Nat),
    (∃ j ∈ l, j.nodes ≤ avail) → (ffScan avail l idx).isSome := by
  intro avail l
  induction l with
  | nil => intro idx h; simp at h
  | cons j rest ih =>
    intro idx ⟨j', hj', hfit'⟩
    by_cases hfit : j.nodes ≤ avail
    · simp [ffScan, hfit]
    · simp only [List.mem_cons] at hj'
      rcases hj' with rfl | hj'
      · exact absurd hfit' hfit
      · simp only [ffScan, if_neg hfit]
        exact ih (idx + 1) ⟨j', hj', hfit'⟩

/-- C5 (confirmed): when the head of the pending queue fits, `FCFS` admits
it (index 0); when the head does not fit but some later job does, `FCFS`
admits nothing while `FF` returns the smallest queue position whose job
fits the available nodes. -/
theorem C5_fcfs_blocking_vs_ff (clock : Clock) (first : Job) (rest : List Job)
    (cluster : Cluster) :
    (first.nodes ≤ cluster.available_nodes →
      FCFS_schedule clock (first :: rest) cluster = some (some 0)) ∧
    (¬ first.nodes ≤ cluster.available_nodes →
      FCFS_schedule clock (first :: rest) cluster = some none ∧
      ∀ jl ∈ rest, jl.nodes ≤ cluster.available_nodes →
        ∃ i, FF_schedule clock (first :: rest) cluster = some (some i) ∧
          (∃ jf, (first :: rest).get? i = some jf
            ∧ jf.nodes ≤ cluster.available_nodes) ∧
          ∀ m, m < i → ∀ jm, (first :: rest).get? m = some jm →
            ¬ jm.nodes ≤ cluster.available_nodes) := by
  constructor
  · intro hfit
    simp [FCFS_schedule, hfit]
  · intro hnofit
    refine ⟨by simp [FCFS_schedule, hnofit], ?_⟩
    intro jl hjl hjlfit
    have hex : ∃ j ∈ first :: rest, j.nodes ≤ cluster.available_nodes :=
      ⟨jl, List.mem_cons_of_mem first hjl, hjlfit⟩
    have hs := ffScan_isSome cluster.available_nodes (first :: rest) 0 hex
    match hscan : ffScan cluster.available_nodes (first :: rest) 0 with
    | none => rw [hscan] at hs; simp at hs
    | some i =>
      obtain ⟨-, jf, hget, hfitf, hmin⟩ := ffScan_some_spec _ _ _ _ hscan
      refine ⟨i, ?_, ⟨jf, ?_, hfitf⟩, ?_⟩
      · simp [FF_schedule, hscan]
      · simpa using hget
      · intro m hm jm hgm
        exact hmin m (by simpa using hm) jm hgm

/-- C5 witness: on a cluster with 1 available node, a 2-node head job and a
1-node second job, FCFS admits nothing and FF admits position 1. -/
theorem C5_fcfs_blocking_vs_ff_witness :
    FCFS_schedule 0 [Job.new 1 2 0 3 3, Job.new 2 1 0 3 3] ⟨4, 1, 0, []⟩ = some none ∧
    ∃ i, FF_schedule 0 [Job.new 1 2 0 3 3, Job.new 2 1 0 3 3] ⟨4, 1, 0, []⟩
        = some (some i) ∧
      (∃ jf, [Job.new 1 2 0 3 3, Job.new 2 1 0 3 3].get? i = some jf
        ∧ jf.nodes ≤ (1 : Nat)) ∧
      ∀ m, m < i → ∀ jm, [Job.new 1 2 0 3 3, Job.new 2 1 0 3 3].get? m = some jm →
        ¬ jm.nodes ≤ (1 : Nat) := by
  have h := (C5_fcfs_blocking_vs_ff 0 (Job.new 1 2 0 3 3) [Job.new 2 1 0 3 3]
    ⟨4, 1, 0, []⟩).2 (by decide)
  exact ⟨h.1, h.2 (Job.new 2 1 0 3 3) (by decide) (by decide)⟩

/-- C7 (counterexample): the utilization computation is not guarded: on a
zero makespan `print_stats` reaches the division `idle * 100 /
total_resources` with `total_resources = 0` (modelled as `none`, the
panic); and the report aggregation over zero admitted jobs indexes an
empty vector (again `none`), with no "no data" outcome. -/
theorem C7_degenerate_aggregation_cex :
    (Cluster.new 4).print_stats 0 = none ∧ aggregateWaits [] = none := by
  decide

/-- C7 (amended): the degenerate cases are NOT guarded — `print_stats`
panics on `makespan * total_nodes = 0` (division by zero) and on
accounting anomalies where `used_resources` exceeds the node-second
supply (u64 underflow), and the report aggregation panics on an empty
wait-time list; both succeed on every non-degenerate input. -/
theorem C7_degenerate_aggregation_amended (c : Cluster) (makespan : Clock)
    (waits : List Nat) (hms : 0 < makespan * c.total_nodes)
    (hused : c.used_resources ≤ makespan * c.total_nodes) (hw : waits ≠ []) :
    (∃ v, c.print_stats makespan = some v) ∧ ∃ v, aggregateWaits waits = some v := by
  constructor
  · have h1 : ¬ (makespan * c.total_nodes < c.used_resources) := Nat.not_lt.mpr hused
    have h2 : ¬ (makespan * c.total_nodes = 0) := hms.ne'
    refine ⟨(makespan * c.total_nodes, makespan * c.total_nodes - c.used_resources,
      (makespan * c.total_nodes - c.used_resources) * 100 / (makespan * c.total_nodes)), ?_⟩
    show (if makespan * c.total_nodes < c.used_resources then none
      else if makespan * c.total_nodes = 0 then none
      else some (makespan * c.total_nodes, makespan * c.total_nodes - c.used_resources,
        (makespan * c.total_nodes - c.used_resources) * 100 / (makespan * c.total_nodes)))
      = some (makespan * c.total_nodes, makespan * c.total_nodes - c.used_resources,
        (makespan * c.total_nodes - c.used_resources) * 100 / (makespan * c.total_nodes))
    rw [if_neg h1, if_neg h2]
  · match h : waits.insertionSort (· ≤ ·) with
    | [] =>
      have hperm := List.perm_insertionSort (· ≤ ·) waits
      rw [h] at hperm
      exact absurd (hperm.symm.eq_nil) hw
    | x :: xs =>
      refine ⟨((x :: xs).sum, (x :: xs).getD ((x :: xs).length / 2) 0, x,
        (x :: xs).getLast (List.cons_ne_nil x xs)), ?_⟩
      unfold aggregateWaits
      rw [h]

/-- C7 witness: the amended statement on a fresh 4-node cluster with
makespan 2 and one recorded wait time. -/
theorem C7_degenerate_aggregation_amended_witness :
    ((∃ v, (Cluster.new 4).print_stats 2 = some v)
      ∧ ∃ v, aggregateWaits [5] = some v) :=
  C7_degenerate_aggregation_amended (Cluster.new 4) 2 [5] (by decide) (by decide)
    (by decide)

lemma backfillScan_none_of_zero : ∀ (avail : Nat) (l : List Job) (idx : Nat),
    backfillScan 0 avail l idx = none := by
  intro avail l
  induction l with
  | nil => intro idx; rfl
  | cons j rest ih =>
    intro idx
    have hno : ¬ (j.requested_run_time < 0 ∧ j.nodes ≤ avail) :=
      fun hc => Nat.not_lt_zero _ hc.1
    simp only [backfillScan, if_neg hno]
    exact ih (idx + 1)

lemma backfillScan_some_spec : ∀ (w : Clock) (avail : Nat) (l : List Job) (idx i : Nat),
    backfillScan w avail l idx = some i →
    idx ≤ i ∧ ∃ j, l.get? (i - idx) = some j ∧ j.requested_run_time < w
      ∧ j.nodes ≤ avail := by
  intro w avail l
  induction l with
  | nil => intro idx i h; simp [backfillScan] at h
  | cons j rest ih =>
    intro idx i h
    by_cases hc : j.requested_run_time < w ∧ j.nodes ≤ avail
    · simp only [backfillScan, if_pos hc, Option.some.injEq] at h
      subst h
      exact ⟨Nat.le_refl _, j, by simp, hc.1, hc.2⟩
    · simp only [backfillScan, if_neg hc] at h
      obtain ⟨hle, j', hget, hreq, hfit⟩ := ih (idx + 1) i h
      refine ⟨by omega, j', ?_, hreq, hfit⟩
      have heq : i - idx = (i - (idx + 1)) + 1 := by omega
      rw [heq]
      simpa using hget

/-- C2 (confirmed): when the head of the queue does not fit, any index the
EASY-backfill policy returns is strictly positive, the job there has
requested runtime strictly below the computed reservation window and fits
the currently available nodes; with no running jobs the window is `0` and
nothing is backfilled. -/
theorem C2_easy_backfill_admissibility (clock : Clock) (first : Job)
    (rest : List Job) (cluster : Cluster)
    (hnofit : ¬ first.nodes ≤ cluster.available_nodes) :
    (∀ i, FCFSEasy_schedule clock (first :: rest) cluster = some (some i) →
      0 < i ∧ ∃ w, reservationWindow clock first.nodes cluster.available_nodes
          (sortByReq cluster.running_jobs) = some w ∧
        ∃ j, (first :: rest).get? i = some j ∧ j.requested_run_time < w ∧
          j.nodes ≤ cluster.available_nodes) ∧
    (cluster.running_jobs = [] →
      FCFSEasy_schedule clock (first :: rest) cluster = some none) := by
  constructor
  · intro i h
    simp only [FCFSEasy_schedule, if_neg hnofit] at h
    match hw : reservationWindow clock first.nodes cluster.available_nodes
        (sortByReq cluster.running_jobs) with
    | none => rw [hw] at h; simp at h
    | some w =>
      rw [hw] at h
      simp only [Option.some.injEq] at h
      obtain ⟨hle, j, hget, hreq, hfit⟩ := backfillScan_some_spec w
        cluster.available_nodes rest 1 i h
      refine ⟨by omega, w, rfl, j, ?_, hreq, hfit⟩
      have heq : i = (i - 1) + 1 := by omega
      rw [heq]
      simpa using hget
  · intro hrun
    have hsort : sortByReq cluster.running_jobs = [] := by
      rw [hrun]; rfl
    simp only [FCFSEasy_schedule, if_neg hnofit, hsort]
    show some (backfillScan 0 cluster.available_nodes rest 1) = some none
    rw [backfillScan_none_of_zero]

/-- C2 witness: a 4-node cluster with 1 available node and one running
3-node job ending at 10; the 4-node head job cannot start, the window is
10, and the 1-node second job with requested runtime 5 is backfilled at
position 1. -/
theorem C2_easy_backfill_admissibility_witness :
    0 < 1 ∧ ∃ w, reservationWindow 0 (Job.new 1 4 0 3 3).nodes
        (⟨4, 1, 0, [⟨5, 3, 0, 0, 10, 10, true, 10⟩]⟩ : Cluster).available_nodes
        (sortByReq (⟨4, 1, 0, [⟨5, 3, 0, 0, 10, 10, true, 10⟩]⟩ : Cluster).running_jobs)
        = some w ∧
      ∃ j, [Job.new 1 4 0 3 3, Job.new 2 1 0 5 5].get? 1 = some j ∧
        j.requested_run_time < w ∧
        j.nodes ≤ (⟨4, 1, 0, [⟨5, 3, 0, 0, 10, 10, true, 10⟩]⟩ : Cluster).available_nodes :=
  (C2_easy_backfill_admissibility 0 (Job.new 1 4 0 3 3) [Job.new 2 1 0 5 5]
    ⟨4, 1, 0, [⟨5, 3, 0, 0, 10, 10, true, 10⟩]⟩ (by decide)).1 1 (by decide)

/-- C9 (confirmed): the reservation computation of `FCFSEasy::schedule`
panics by u64 underflow exactly when the running job at which the
accumulated freed capacity first reaches the head job's requirement has
`expected_end < clock`; concretely, a job admitted at 0 with requested
runtime 2 but actual runtime 9 is still running at clock 5 with
`expected_end = 2 < 5`, and the whole schedule call panics. -/
theorem C9_window_underflow_precondition :
    (∀ (clock : Clock) (need avail : Nat) (l : List Job),
      reservationWindow clock need avail l = none ↔
        ∃ j, breakJob need avail l = some j ∧ j.expected_end < clock) ∧
    breakJob 4 1 [⟨5, 3, 0, 0, 2, 2, true, 9⟩] = some ⟨5, 3, 0, 0, 2, 2, true, 9⟩ ∧
    (⟨5, 3, 0, 0, 2, 2, true, 9⟩ : Job).requested_run_time
      < (⟨5, 3, 0, 0, 2, 2, true, 9⟩ : Job).run_time ∧
    FCFSEasy_schedule 5 [Job.new 1 4 0 3 3]
      ⟨4, 1, 0, [⟨5, 3, 0, 0, 2, 2, true, 9⟩]⟩ = none := by
  refine ⟨?_, by decide, by decide, by decide⟩
  intro clock need avail l
  induction l generalizing avail with
  | nil => simp [reservationWindow, breakJob]
  | cons j rest ih =>
    by_cases hcap : need ≤ avail + j.nodes
    · simp only [reservationWindow, breakJob, if_pos hcap]
      by_cases hclk : clock ≤ j.expected_end
      · simp [if_pos hclk, Nat.not_lt.mpr hclk]
      · simp only [if_neg hclk, true_iff]
        exact ⟨j, rfl, Nat.lt_of_not_le hclk⟩
    · simp only [reservationWindow, breakJob, if_neg hcap]
      exact ih (avail + j.nodes)

lemma sorted_eq_of_perm_of_nodup_keys : ∀ (l1 l2 : List Job), l1.Perm l2 →
    l1.Sorted reqLE → l2.Sorted reqLE →
    (l1.map Job.requested_run_time).Nodup → l1 = l2 := by
  intro l1
  induction l1 with
  | nil =>
    intro l2 hp _ _ _
    exact (hp.symm.eq_nil).symm
  | cons a t1 ih =>
    intro l2 hp hs1 hs2 hnd
    match l2 with
    | [] => exact absurd hp.eq_nil (by simp)
    | b :: t2 =>
      have hab : a = b := by
        by_contra hne
        have hbmem : b ∈ a :: t1 := hp.symm.subset (List.mem_cons_self b t2)
        have hamem : a ∈ b :: t2 := hp.subset (List.mem_cons_self a t1)
        rcases List.mem_cons.mp hbmem with hb | hb
        · exact hne hb.symm
        rcases List.mem_cons.mp hamem with ha | ha
        · exact hne ha
        have h1 : reqLE a b := (List.sorted_cons.mp hs1).1 b hb
        have h2 : reqLE b a := (List.sorted_cons.mp hs2).1 a ha
        have heq : a.requested_run_time = b.requested_run_time :=
          Nat.le_antisymm h1 h2
        have : a.requested_run_time ∈ t1.map Job.requested_run_time := by
          rw [heq]
          exact List.mem_map_of_mem Job.requested_run_time hb
        exact (List.nodup_cons.mp (by simpa using hnd)).1 this
      subst hab
      have ht : t1 = t2 := ih t2 hp.cons_inv (List.sorted_cons.mp hs1).2
        (List.sorted_cons.mp hs2).2 (List.nodup_cons.mp (by simpa using hnd)).2
      rw [ht]

/-- C8 (counterexample): `FCFSEasy::schedule` is not a function of the
observable cluster state alone: two clusters identical except for the
iteration order of the running-jobs hash map — two 3-node jobs with equal
requested runtime 5 but expected ends 5 and 100 — give reservation windows
5 and 100, so the 50-unit backfill candidate is rejected under one order
and admitted under the other. -/
theorem C8_determinism_cex :
    (⟨10, 1, 0, [⟨11, 3, 0, 0, 5, 5, true, 5⟩, ⟨12, 3, 0, 95, 5, 100, true, 5⟩]⟩
      : Cluster).running_jobs.Perm
      (⟨10, 1, 0, [⟨12, 3, 0, 95, 5, 100, true, 5⟩, ⟨11, 3, 0, 0, 5, 5, true, 5⟩]⟩
      : Cluster).running_jobs ∧
    FCFSEasy_schedule 0 [Job.new 1 4 0 3 3, Job.new 2 1 0 50 50]
      ⟨10, 1, 0, [⟨11, 3, 0, 0, 5, 5, true, 5⟩, ⟨12, 3, 0, 95, 5, 100, true, 5⟩]⟩
      = some none ∧
    FCFSEasy_schedule 0 [Job.new 1 4 0 3 3, Job.new 2 1 0 50 50]
      ⟨10, 1, 0, [⟨12, 3, 0, 95, 5, 100, true, 5⟩, ⟨11, 3, 0, 0, 5, 5, true, 5⟩]⟩
      = some (some 1) ∧
    (some none : Option (Option Nat)) ≠ some (some 1) := by
  refine ⟨?_, by decide, by decide, by decide⟩
  decide

/-- C8 (amended): for a fixed trace, policy and node count the simulation
is deterministic up to the running-jobs hash-map iteration order:
`FCFSEasy::schedule` returns the same result for any two iteration orders
of the same running set whenever the running jobs' requested runtimes are
pairwise distinct (the sort by requested runtime then has a unique
result); with equal requested runtimes the returned index can depend on
the iteration order, as the counterexample shows. -/
theorem C8_determinism_amended (clock : Clock) (jobs : List Job) (c1 c2 : Cluster)
    (havail : c1.available_nodes = c2.available_nodes)
    (hperm : c1.running_jobs.Perm c2.running_jobs)
    (hnodup : (c1.running_jobs.map Job.requested_run_time).Nodup) :
    FCFSEasy_schedule clock jobs c1 = FCFSEasy_schedule clock jobs c2 := by
  have hsort : sortByReq c1.running_jobs = sortByReq c2.running_jobs := by
    refine sorted_eq_of_perm_of_nodup_keys _ _ ?_ ?_ ?_ ?_
    · exact ((List.perm_insertionSort reqLE c1.running_jobs).trans hperm).trans
        (List.perm_insertionSort reqLE c2.running_jobs).symm
    · exact List.sorted_insertionSort reqLE c1.running_jobs
    · exact List.sorted_insertionSort reqLE c2.running_jobs
    · exact (((List.perm_insertionSort reqLE c1.running_jobs).map
        Job.requested_run_time).nodup_iff).mpr hnodup
  cases jobs with
  | nil => rfl
  | cons first rest =>
    simp only [FCFSEasy_schedule, havail, hsort]

/-- C8 witness: with distinct requested runtimes (5 and 6) the two
iteration orders give the same schedule decision. -/
theorem C8_determinism_amended_witness :
    FCFSEasy_schedule 0 [Job.new 1 4 0 3 3, Job.new 2 1 0 50 50]
      ⟨10, 1, 0, [⟨11, 3, 0, 0, 5, 5, true, 5⟩, ⟨12, 3, 0, 95, 6, 101, true, 5⟩]⟩
    = FCFSEasy_schedule 0 [Job.new 1 4 0 3 3, Job.new 2 1 0 50 50]
      ⟨10, 1, 0, [⟨12, 3, 0, 95, 6, 101, true, 5⟩, ⟨11, 3, 0, 0, 5, 5, true, 5⟩]⟩ :=
  C8_determinism_amended 0 [Job.new 1 4 0 3 3, Job.new 2 1 0 50 50]
    ⟨10, 1, 0, [⟨11, 3, 0, 0, 5, 5, true, 5⟩, ⟨12, 3, 0, 95, 6, 101, true, 5⟩]⟩
    ⟨10, 1, 0, [⟨12, 3, 0, 95, 6, 101, true, 5⟩, ⟨11, 3, 0, 0, 5, 5, true, 5⟩]⟩
    rfl (by decide) (by decide)

lemma timedEventCmp_lt_fst_le {y x : Clock × Event} (h : timedEventCmp y x = .lt) :
    y.1 ≤ x.1 := by
  rcases Nat.lt_trichotomy y.1 x.1 with hlt | heq | hgt
  · exact Nat.le_of_lt hlt
  · exact Nat.le_of_eq heq
  · exfalso
    unfold timedEventCmp at h
    rw [Nat.compare_eq_gt.mpr hgt] at h
    simp [Ordering.then] at h

lemma timedEventCmp_not_lt_fst_le {y x : Clock × Event} (h : ¬ timedEventCmp y x = .lt) :
    x.1 ≤ y.1 := by
  by_contra hc
  have hlt : y.1 < x.1 := Nat.lt_of_not_le hc
  apply h
  unfold timedEventCmp
  rw [Nat.compare_eq_lt.mpr hlt]
  rfl

lemma selectMin_perm : ∀ (l : List (Clock × Event)) (x : Clock × Event),
    ((selectMin x l).1 :: (selectMin x l).2).Perm (x :: l) := by
  intro l
  induction l with
  | nil => intro x; exact List.Perm.refl _
  | cons y ys ih =>
    intro x
    by_cases hc : timedEventCmp y x = .lt
    · simp only [selectMin, if_pos hc]
      calc (selectMin y ys).1 :: x :: (selectMin y ys).2
          ~ x :: (selectMin y ys).1 :: (selectMin y ys).2 := List.Perm.swap _ _ _
        _ ~ x :: y :: ys := (ih y).cons x
    · simp only [selectMin, if_neg hc]
      calc (selectMin x ys).1 :: y :: (selectMin x ys).2
          ~ y :: (selectMin x ys).1 :: (selectMin x ys).2 := List.Perm.swap _ _ _
        _ ~ y :: x :: ys := (ih x).cons y
        _ ~ x :: y :: ys := List.Perm.swap _ _ _

lemma selectMin_fst_le : ∀ (l : List (Clock × Event)) (x : Clock × Event),
    (selectMin x l).1.1 ≤ x.1 ∧ ∀ z ∈ l, (selectMin x l).1.1 ≤ z.1 := by
  intro l
  induction l with
  | nil => intro x; exact ⟨Nat.le_refl _, by simp⟩
  | cons y ys ih =>
    intro x
    by_cases hc : timedEventCmp y x = .lt
    · simp only [selectMin, if_pos hc]
      obtain ⟨h1, h2⟩ := ih y
      refine ⟨Nat.le_trans h1 (timedEventCmp_lt_fst_le hc), ?_⟩
      intro z hz
      rcases List.mem_cons.mp hz with rfl | hz
      · exact h1
      · exact h2 z hz
    · simp only [selectMin, if_neg hc]
      obtain ⟨h1, h2⟩ := ih x
      refine ⟨h1, ?_⟩
      intro z hz
      rcases List.mem_cons.mp hz with rfl | hz
      · exact Nat.le_trans h1 (timedEventCmp_not_lt_fst_le hc)
      · exact h2 z hz

lemma popMin_spec (ev : List (Clock × Event)) (h : ev ≠ []) :
    ∃ m rest, popMin ev = some (m, rest) ∧ (m :: rest).Perm ev ∧
      ∀ z ∈ ev, m.1 ≤ z.1 := by
  match ev with
  | [] => exact absurd rfl h
  | x :: xs =>
    refine ⟨(selectMin x xs).1, (selectMin x xs).2, rfl, selectMin_perm xs x, ?_⟩
    intro z hz
    obtain ⟨h1, h2⟩ := selectMin_fst_le xs x
    rcases List.mem_cons.mp hz with rfl | hz
    · exact h1
    · exact h2 z hz

lemma swapRemove_length {l : List Job} (h : l ≠ []) (i : Nat) :
    (swapRemove l i).length = l.length - 1 := by
  unfold swapRemove
  cases hql : l.getLast? with
  | none => exact absurd (List.getLast?_eq_none_iff.mp hql) h
  | some last => simp [List.length_dropLast, List.length_set]

lemma swapRemove_perm (l : List Job) (i : Nat) (hi : i < l.length) :
    (l.get ⟨i, hi⟩ :: swapRemove l i).Perm l := by
  have hne : l ≠ [] := by
    intro hl
    subst hl
    simp at hi
  obtain ⟨d, b, rfl⟩ : ∃ d b, l = d ++ [b] :=
    ⟨l.dropLast, l.getLast hne, (List.dropLast_concat_getLast hne).symm⟩
  have hsw : swapRemove (d ++ [b]) i = ((d ++ [b]).set i b).dropLast := by
    unfold swapRemove
    rw [List.getLast?_concat]
  rw [hsw]
  by_cases hid : i < d.length
  · rw [List.set_append_left i b hid, List.dropLast_concat]
    have hget : (d ++ [b]).get ⟨i, hi⟩ = d.get ⟨i, hid⟩ := by
      simp [List.get_eq_getElem, List.getElem_append_left hid]
    rw [hget, List.set_eq_take_cons_drop b hid]
    have hd : d.take i ++ d.get ⟨i, hid⟩ :: d.drop (i + 1) = d := by
      simp only [List.get_eq_getElem]
      rw [← List.drop_eq_getElem_cons hid]
      exact List.take_append_drop i d
    conv_rhs => rw [← hd]
    calc d.get ⟨i, hid⟩ :: (d.take i ++ b :: d.drop (i + 1))
        ~ d.get ⟨i, hid⟩ :: b :: (d.take i ++ d.drop (i + 1)) :=
          (List.perm_middle).cons _
      _ ~ b :: d.get ⟨i, hid⟩ :: (d.take i ++ d.drop (i + 1)) := List.Perm.swap _ _ _
      _ ~ b :: (d.take i ++ d.get ⟨i, hid⟩ :: d.drop (i + 1)) :=
          (List.perm_middle).symm.cons _
      _ ~ (d.take i ++ d.get ⟨i, hid⟩ :: d.drop (i + 1)) ++ [b] :=
          (List.perm_append_singleton _ _).symm
  · have hlen : d.length ≤ i := Nat.le_of_not_lt hid
    rw [List.set_append_right i b hlen]
    have hi0 : i - d.length = 0 := by
      have : i < d.length + 1 := by simpa using hi
      omega
    rw [hi0]
    have hset : ([b] : List Job).set 0 b = [b] := rfl
    rw [hset, List.dropLast_concat]
    have hget : (d ++ [b]).get ⟨i, hi⟩ = b := by
      simp only [List.get_eq_getElem]
      rw [List.getElem_append_right hlen]
      simp [hi0]
    rw [hget]
    exact (List.perm_append_singleton _ _).symm

lemma newJobs_append (a b : List (Clock × Event)) :
    newJobs (a ++ b) = newJobs a ++ newJobs b :=
  List.filterMap_append a b _

lemma finishedIds_append (a b : List (Clock × Event)) :
    finishedIds (a ++ b) = finishedIds a ++ finishedIds b :=
  List.filterMap_append a b _

lemma newJobs_perm {a b : List (Clock × Event)} (h : a.Perm b) :
    (newJobs a).Perm (newJobs b) :=
  h.filterMap _

lemma finishedIds_perm {a b : List (Clock × Event)} (h : a.Perm b) :
    (finishedIds a).Perm (finishedIds b) :=
  h.filterMap _

lemma newJobs_cons_new (t : Clock) (j : Job) (ev : List (Clock × Event)) :
    newJobs ((t, Event.newJob j) :: ev) = j :: newJobs ev := rfl

lemma newJobs_cons_fin (t : Clock) (i : Nat) (ev : List (Clock × Event)) :
    newJobs ((t, Event.jobFinished i) :: ev) = newJobs ev := rfl

lemma finishedIds_cons_new (t : Clock) (j : Job) (ev : List (Clock × Event)) :
    finishedIds ((t, Event.newJob j) :: ev) = finishedIds ev := rfl

lemma finishedIds_cons_fin (t : Clock) (i : Nat) (ev : List (Clock × Event)) :
    finishedIds ((t, Event.jobFinished i) :: ev) = i :: finishedIds ev := rfl

lemma mem_finishedIds {t : Clock} {i : Nat} {ev : List (Clock × Event)}
    (h : (t, Event.jobFinished i) ∈ ev) : i ∈ finishedIds ev :=
  List.mem_filterMap.mpr ⟨(t, Event.jobFinished i), h, rfl⟩

/-- If the heap holds no completion events, the running map is empty and
(under the capacity invariant) the whole cluster is available. -/
lemma running_empty_of_no_finished {s : EngState} (hinv : Inv s)
    (hev : finishedIds s.events = []) :
    s.cluster.running_jobs = [] ∧
      s.cluster.available_nodes = s.cluster.total_nodes := by
  have hperm := hinv.fin_perm
  rw [hev] at hperm
  have hmap : s.cluster.running_jobs.map Job.id = [] := hperm.symm.eq_nil
  have hrun : s.cluster.running_jobs = [] := List.map_eq_nil.mp hmap
  refine ⟨hrun, ?_⟩
  have := hinv.capacity
  rw [hrun] at this
  simpa [sumNodes] using this

/-- Admitting a fitting queued job preserves the loop invariant: the queue
loses the job, the cluster gains it, and its completion event is pushed. -/
lemma inv_admit {events : List (Clock × Event)} {queue queue' : List Job}
    {cluster : Cluster} {clock : Clock} {job : Job}
    (hinv : Inv ⟨events, queue, cluster, clock⟩)
    (hqperm : (job :: queue').Perm queue)
    (hfit : job.nodes ≤ cluster.available_nodes) :
    Inv ⟨events ++ [(clock + job.run_time, Event.jobFinished job.id)], queue',
      (cluster.schedule_job job clock).1, clock⟩ := by
  have hcap : cluster.available_nodes + sumNodes cluster.running_jobs
      = cluster.total_nodes := hinv.capacity
  have hnodup : (queue.map Job.id ++ (newJobs events).map Job.id
      ++ cluster.running_jobs.map Job.id).Nodup := hinv.ids_nodup
  have hfinp : (finishedIds events).Perm (cluster.running_jobs.map Job.id) :=
    hinv.fin_perm
  have hqfit : ∀ j ∈ queue, j.nodes ≤ cluster.total_nodes := hinv.queue_fit
  have hevfit : ∀ j ∈ newJobs events, j.nodes ≤ cluster.total_nodes := hinv.ev_fit
  have hclk : ∀ te ∈ events, clock ≤ te.1 := hinv.clock_le
  have hjmem : job ∈ queue := hqperm.subset (List.mem_cons_self _ _)
  have hjq : job.id ∈ queue.map Job.id := List.mem_map_of_mem Job.id hjmem
  have hfresh : job.id ∉ cluster.running_jobs.map Job.id := by
    intro hmem
    rcases List.nodup_append.mp hnodup with ⟨-, -, hdisj⟩
    exact hdisj (List.mem_append_left _ hjq) hmem
  have hins : hmInsert cluster.running_jobs (job.set_scheduled clock)
      = cluster.running_jobs ++ [job.set_scheduled clock] :=
    hmInsert_of_fresh _ _ hfresh
  have hsch : (cluster.schedule_job job clock).1 =
      { cluster with
          available_nodes := cluster.available_nodes - job.nodes
          running_jobs := cluster.running_jobs ++ [job.set_scheduled clock] } := by
    simp [Cluster.schedule_job, Nat.not_lt.mpr hfit, hins]
  rw [hsch]
  have hqids : (queue.map Job.id).Perm (job.id :: queue'.map Job.id) :=
    (hqperm.map Job.id).symm
  refine ⟨?_, ?_, ?_, ?_, ?_, ?_⟩
  · show cluster.available_nodes - job.nodes
        + sumNodes (cluster.running_jobs ++ [job.set_scheduled clock])
        = cluster.total_nodes
    rw [sumNodes_append]
    have hone : sumNodes [job.set_scheduled clock] = job.nodes := by
      simp [sumNodes, Job.set_scheduled]
    rw [hone]
    omega
  · show (queue'.map Job.id
      ++ (newJobs (events ++ [(clock + job.run_time, Event.jobFinished job.id)])).map Job.id
      ++ (cluster.running_jobs ++ [job.set_scheduled clock]).map Job.id).Nodup
    rw [newJobs_append]
    have h0 : newJobs [(clock + job.run_time, Event.jobFinished job.id)] = [] := rfl
    rw [h0, List.append_nil, List.map_append]
    have h1 : ([job.set_scheduled clock]).map Job.id = [job.id] := rfl
    rw [h1]
    have hB : ((queue'.map Job.id ++ (newJobs events).map Job.id)
        ++ (cluster.running_jobs.map Job.id ++ [job.id])).Perm
        (job.id :: ((queue'.map Job.id ++ (newJobs events).map Job.id)
          ++ cluster.running_jobs.map Job.id)) := by
      calc (queue'.map Job.id ++ (newJobs events).map Job.id)
            ++ (cluster.running_jobs.map Job.id ++ [job.id])
          ~ (queue'.map Job.id ++ (newJobs events).map Job.id)
            ++ (job.id :: cluster.running_jobs.map Job.id) :=
            List.Perm.append_left _ (List.perm_append_singleton _ _)
        _ ~ job.id :: ((queue'.map Job.id ++ (newJobs events).map Job.id)
            ++ cluster.running_jobs.map Job.id) := List.perm_middle
    have hA : ((queue.map Job.id ++ (newJobs events).map Job.id)
        ++ cluster.running_jobs.map Job.id).Perm
        (job.id :: ((queue'.map Job.id ++ (newJobs events).map Job.id)
          ++ cluster.running_jobs.map Job.id)) := by
      calc (queue.map Job.id ++ (newJobs events).map Job.id)
            ++ cluster.running_jobs.map Job.id
          ~ ((job.id :: queue'.map Job.id) ++ (newJobs events).map Job.id)
            ++ cluster.running_jobs.map Job.id :=
            (hqids.append_right _).append_right _
        _ = job.id :: ((queue'.map Job.id ++ (newJobs events).map Job.id)
            ++ cluster.running_jobs.map Job.id) := by simp
    exact (hB.trans hA.symm).nodup_iff.mpr hnodup
  · show (finishedIds (events ++ [(clock + job.run_time, Event.jobFinished job.id)])).Perm
      ((cluster.running_jobs ++ [job.set_scheduled clock]).map Job.id)
    rw [finishedIds_append, List.map_append]
    have h2 : finishedIds [(clock + job.run_time, Event.jobFinished job.id)]
        = [job.id] := rfl
    have h3 : ([job.set_scheduled clock]).map Job.id = [job.id] := rfl
    rw [h2, h3]
    exact hfinp.append_right _
  · show ∀ j ∈ queue', j.nodes ≤ cluster.total_nodes
    intro j hj
    exact hqfit j (hqperm.subset (List.mem_cons_of_mem _ hj))
  · show ∀ j ∈ newJobs (events ++ [(clock + job.run_time, Event.jobFinished job.id)]),
      j.nodes ≤ cluster.total_nodes
    intro j hj
    rw [newJobs_append] at hj
    have h0 : newJobs [(clock + job.run_time, Event.jobFinished job.id)] = [] := rfl
    rw [h0, List.append_nil] at hj
    exact hevfit j hj
  · show ∀ te ∈ events ++ [(clock + job.run_time, Event.jobFinished job.id)],
      clock ≤ te.1
    intro te hte
    rcases List.mem_append.mp hte with hte | hte
    · exact hclk te hte
    · simp only [List.mem_singleton] at hte
      subst hte
      exact Nat.le_add_right _ _

/-- The drain phase preserves the loop invariant, keeps the termination
measure, only appends to the event heap, and — when started on an empty
heap with a non-empty queue — pushes at least one completion event. -/
lemma drain_spec (sched : Clock → List Job → Cluster → Option (Option Nat))
    (hs : SchedOK sched) :
    ∀ (n : Nat) (queue : List Job), queue.length ≤ n →
    ∀ (cluster : Cluster) (events : List (Clock × Event)) (clock : Clock),
    Inv ⟨events, queue, cluster, clock⟩ →
    ∃ q cl ev, drain sched clock queue cluster events = some (q, cl, ev) ∧
      Inv ⟨ev, q, cl, clock⟩ ∧
      2 * (newJobs ev).length + (finishedIds ev).length + q.length
        = 2 * (newJobs events).length + (finishedIds events).length + queue.length ∧
      (∃ added, ev = events ++ added) ∧
      (queue ≠ [] → events = [] → ev ≠ []) := by
  intro n
  induction n with
  | zero =>
    intro queue hlen cluster events clock hinv
    have hq : queue = [] := List.length_eq_zero.mp (Nat.le_zero.mp hlen)
    subst hq
    refine ⟨[], cluster, events, ?_, hinv, rfl, ⟨[], (List.append_nil events).symm⟩,
      fun hc _ => absurd rfl hc⟩
    unfold drain
    rfl
  | succ n ih =>
    intro queue hlen cluster events clock hinv
    by_cases hq : queue = []
    · subst hq
      refine ⟨[], cluster, events, ?_, hinv, rfl, ⟨[], (List.append_nil events).symm⟩,
        fun hc _ => absurd rfl hc⟩
      unfold drain
      rfl
    · match hsched : sched clock queue cluster with
      | none => exact absurd hsched (hs.no_panic clock queue cluster hq)
      | some none =>
        refine ⟨queue, cluster, events, ?_, hinv, rfl,
          ⟨[], (List.append_nil events).symm⟩, ?_⟩
        · unfold drain
          rw [dif_neg hq, hsched]
        · intro _ hev
          exfalso
          have hfin0 : finishedIds events = [] := by rw [hev]; rfl
          obtain ⟨hrun, havail⟩ := running_empty_of_no_finished hinv hfin0
          exact hs.progress clock queue cluster hq havail hinv.queue_fit hsched
      | some (some i) =>
        obtain ⟨hi, hfit⟩ := hs.valid clock queue cluster i hsched
        have hqperm := swapRemove_perm queue i hi
        have hinv' := inv_admit hinv hqperm hfit
        have hqpos : 0 < queue.length := List.length_pos.mpr hq
        have hlen' : (swapRemove queue i).length ≤ n := by
          rw [swapRemove_length hq i]
          omega
        obtain ⟨q, cl, ev, hdr, hinvf, hmeas, ⟨added, hadd⟩, -⟩ :=
          ih (swapRemove queue i) hlen'
            (cluster.schedule_job (queue.get ⟨i, hi⟩) clock).1
            (events ++ [(clock + (queue.get ⟨i, hi⟩).run_time,
              Event.jobFinished (queue.get ⟨i, hi⟩).id)]) clock hinv'
        refine ⟨q, cl, ev, ?_, hinvf, ?_, ?_, ?_⟩
        · unfold drain
          rw [dif_neg hq, hsched]
          show (if hi' : i < queue.length then
              drain sched clock (swapRemove queue i)
                (cluster.schedule_job (queue.get ⟨i, hi'⟩) clock).1
                (events ++ [(clock + (queue.get ⟨i, hi'⟩).run_time,
                  Event.jobFinished (queue.get ⟨i, hi'⟩).id)])
            else none) = some (q, cl, ev)
          rw [dif_pos hi]
          exact hdr
        · rw [hmeas, newJobs_append, finishedIds_append]
          have h1 : newJobs [(clock + (queue.get ⟨i, hi⟩).run_time,
              Event.jobFinished (queue.get ⟨i, hi⟩).id)] = [] := rfl
          have h2 : finishedIds [(clock + (queue.get ⟨i, hi⟩).run_time,
              Event.jobFinished (queue.get ⟨i, hi⟩).id)] = [(queue.get ⟨i, hi⟩).id] := rfl
          rw [h1, h2, swapRemove_length hq i]
          simp only [List.length_append, List.length_nil, List.length_cons]
          omega
        · exact ⟨[(clock + (queue.get ⟨i, hi⟩).run_time,
            Event.jobFinished (queue.get ⟨i, hi⟩).id)] ++ added,
            by rw [hadd, List.append_assoc]⟩
        · intro _ _
          rw [hadd]
          simp

/-- Popping an arrival event preserves the loop invariant: the clock moves
to its timestamp and its job joins the pending queue. -/
lemma inv_pop_newJob {ev rest : List (Clock × Event)} {q : List Job}
    {cluster : Cluster} {clock t : Clock} {j : Job}
    (hinv : Inv ⟨ev, q, cluster, clock⟩)
    (hperm : ((t, Event.newJob j) :: rest).Perm ev)
    (hmin : ∀ z ∈ ev, t ≤ z.1) :
    Inv ⟨rest, q ++ [j], cluster, t⟩ := by
  have hcap : cluster.available_nodes + sumNodes cluster.running_jobs
      = cluster.total_nodes := hinv.capacity
  have hnodup : (q.map Job.id ++ (newJobs ev).map Job.id
      ++ cluster.running_jobs.map Job.id).Nodup := hinv.ids_nodup
  have hfinp : (finishedIds ev).Perm (cluster.running_jobs.map Job.id) :=
    hinv.fin_perm
  have hqfit : ∀ x ∈ q, x.nodes ≤ cluster.total_nodes := hinv.queue_fit
  have hevfit : ∀ x ∈ newJobs ev, x.nodes ≤ cluster.total_nodes := hinv.ev_fit
  have hnew : (j :: newJobs rest).Perm (newJobs ev) := newJobs_perm hperm
  have hjev : j ∈ newJobs ev := hnew.subset (List.mem_cons_self _ _)
  refine ⟨hcap, ?_, ?_, ?_, ?_, ?_⟩
  · show ((q ++ [j]).map Job.id ++ (newJobs rest).map Job.id
      ++ cluster.running_jobs.map Job.id).Nodup
    have hids : ((newJobs ev).map Job.id).Perm
        (j.id :: (newJobs rest).map Job.id) := (hnew.map Job.id).symm
    have hA : ((q.map Job.id ++ (newJobs ev).map Job.id)
        ++ cluster.running_jobs.map Job.id).Perm
        (j.id :: ((q.map Job.id ++ (newJobs rest).map Job.id)
          ++ cluster.running_jobs.map Job.id)) := by
      calc (q.map Job.id ++ (newJobs ev).map Job.id)
            ++ cluster.running_jobs.map Job.id
          ~ (q.map Job.id ++ (j.id :: (newJobs rest).map Job.id))
            ++ cluster.running_jobs.map Job.id :=
            ((hids.append_left _).append_right _)
        _ ~ (j.id :: (q.map Job.id ++ (newJobs rest).map Job.id))
            ++ cluster.running_jobs.map Job.id :=
            List.perm_middle.append_right _
        _ = j.id :: ((q.map Job.id ++ (newJobs rest).map Job.id)
            ++ cluster.running_jobs.map Job.id) := by simp
    have hB : (((q ++ [j]).map Job.id ++ (newJobs rest).map Job.id)
        ++ cluster.running_jobs.map Job.id).Perm
        (j.id :: ((q.map Job.id ++ (newJobs rest).map Job.id)
          ++ cluster.running_jobs.map Job.id)) := by
      calc ((q ++ [j]).map Job.id ++ (newJobs rest).map Job.id)
            ++ cluster.running_jobs.map Job.id
          = ((q.map Job.id ++ [j.id]) ++ (newJobs rest).map Job.id)
            ++ cluster.running_jobs.map Job.id := by simp
        _ ~ (((j.id :: q.map Job.id)) ++ (newJobs rest).map Job.id)
            ++ cluster.running_jobs.map Job.id :=
            ((List.perm_append_singleton _ _).append_right _).append_right _
        _ = j.id :: ((q.map Job.id ++ (newJobs rest).map Job.id)
            ++ cluster.running_jobs.map Job.id) := by simp
    exact (hB.trans hA.symm).nodup_iff.mpr hnodup
  · show (finishedIds rest).Perm (cluster.running_jobs.map Job.id)
    have h1 := finishedIds_perm hperm
    rw [finishedIds_cons_new] at h1
    exact h1.trans hfinp
  · show ∀ x ∈ q ++ [j], x.nodes ≤ cluster.total_nodes
    intro x hx
    rcases List.mem_append.mp hx with hx | hx
    · exact hqfit x hx
    · simp only [List.mem_singleton] at hx
      subst hx
      exact hevfit x hjev
  · show ∀ x ∈ newJobs rest, x.nodes ≤ cluster.total_nodes
    intro x hx
    exact hevfit x (hnew.subset (List.mem_cons_of_mem _ hx))
  · show ∀ te ∈ rest, t ≤ te.1
    intro te hte
    exact hmin te (hperm.subset (List.mem_cons_of_mem _ hte))

/-- Popping a completion event preserves the loop invariant: the clock
moves to its timestamp and the job is released from the cluster. -/
lemma inv_pop_finished {ev rest : List (Clock × Event)} {q : List Job}
    {cluster : Cluster} {clock t : Clock} {i : Nat}
    (hinv : Inv ⟨ev, q, cluster, clock⟩)
    (hperm : ((t, Event.jobFinished i) :: rest).Perm ev)
    (hmin : ∀ z ∈ ev, t ≤ z.1) :
    Inv ⟨rest, q, cluster.finish_job i, t⟩ := by
  have hcap : cluster.available_nodes + sumNodes cluster.running_jobs
      = cluster.total_nodes := hinv.capacity
  have hnodup : (q.map Job.id ++ (newJobs ev).map Job.id
      ++ cluster.running_jobs.map Job.id).Nodup := hinv.ids_nodup
  have hfinp : (finishedIds ev).Perm (cluster.running_jobs.map Job.id) :=
    hinv.fin_perm
  have hqfit : ∀ x ∈ q, x.nodes ≤ cluster.total_nodes := hinv.queue_fit
  have hevfit : ∀ x ∈ newJobs ev, x.nodes ≤ cluster.total_nodes := hinv.ev_fit
  have hmemev : (t, Event.jobFinished i) ∈ ev := hperm.subset (List.mem_cons_self _ _)
  have hasid : i ∈ finishedIds ev := mem_finishedIds hmemev
  have hidrun : i ∈ cluster.running_jobs.map Job.id := hfinp.subset hasid
  have hsome := hmRemove_isSome_of_mem hidrun
  match hrem : hmRemove cluster.running_jobs i with
  | none => rw [hrem] at hsome; simp at hsome
  | some (jr, runRest) =>
    obtain ⟨hjrid, hrperm⟩ := hmRemove_perm hrem
    have hfin : cluster.finish_job i =
        { cluster with
            available_nodes := cluster.available_nodes + jr.nodes
            used_resources := cluster.used_resources + jr.nodes * jr.run_time
            running_jobs := runRest } := by
      simp [Cluster.finish_job, hrem]
    rw [hfin]
    have hrids : (cluster.running_jobs.map Job.id).Perm (i :: runRest.map Job.id) := by
      have := hrperm.map Job.id
      rw [List.map_cons, hjrid] at this
      exact this
    have hnewr : (newJobs rest).Perm (newJobs ev) := by
      have h1 := newJobs_perm hperm
      rw [newJobs_cons_fin] at h1
      exact h1
    refine ⟨?_, ?_, ?_, ?_, ?_, ?_⟩
    · show cluster.available_nodes + jr.nodes + sumNodes runRest = cluster.total_nodes
      have hsum : sumNodes cluster.running_jobs = jr.nodes + sumNodes runRest := by
        rw [sumNodes_perm hrperm]
        simp [sumNodes]
      omega
    · show (q.map Job.id ++ (newJobs rest).map Job.id ++ runRest.map Job.id).Nodup
      have hstep : ((q.map Job.id ++ (newJobs ev).map Job.id)
          ++ cluster.running_jobs.map Job.id).Perm
          ((q.map Job.id ++ (newJobs ev).map Job.id) ++ (i :: runRest.map Job.id)) :=
        List.Perm.append_left _ hrids
      have hnodup2 : ((q.map Job.id ++ (newJobs ev).map Job.id)
          ++ (i :: runRest.map Job.id)).Nodup := hstep.nodup_iff.mp hnodup
      have hsub : ((q.map Job.id ++ (newJobs ev).map Job.id) ++ runRest.map Job.id)
          <+ ((q.map Job.id ++ (newJobs ev).map Job.id) ++ (i :: runRest.map Job.id)) :=
        List.Sublist.append_left (List.sublist_cons_self _ _) _
      have hnodup3 : ((q.map Job.id ++ (newJobs ev).map Job.id)
          ++ runRest.map Job.id).Nodup := List.Nodup.sublist hsub hnodup2
      have hcong : ((q.map Job.id ++ (newJobs rest).map Job.id)
          ++ runRest.map Job.id).Perm
          ((q.map Job.id ++ (newJobs ev).map Job.id) ++ runRest.map Job.id) :=
        (((hnewr.map Job.id).append_left _).append_right _)
      exact hcong.nodup_iff.mpr hnodup3
    · show (finishedIds rest).Perm (runRest.map Job.id)
      have h1 : (i :: finishedIds rest).Perm (finishedIds ev) := finishedIds_perm hperm
      have h2 : (i :: finishedIds rest).Perm (i :: runRest.map Job.id) :=
        h1.trans (hfinp.trans hrids)
      exact h2.cons_inv
    · show ∀ x ∈ q, x.nodes ≤ cluster.total_nodes
      exact hqfit
    · show ∀ x ∈ newJobs rest, x.nodes ≤ cluster.total_nodes
      intro x hx
      exact hevfit x (hnewr.subset hx)
    · show ∀ te ∈ rest, t ≤ te.1
      intro te hte
      exact hmin te (hperm.subset (List.mem_cons_of_mem _ hte))

lemma runF_done (sched : Clock → List Job → Cluster → Option (Option Nat))
    (fuel : Nat) (s : EngState) (popped : List Clock)
    (hend : s.events = [] ∧ s.queue = []) :
    runF sched (fuel + 1) s popped = .finished s popped := by
  simp [runF, hend]

lemma runF_step_new (sched : Clock → List Job → Cluster → Option (Option Nat))
    (fuel : Nat) (s : EngState) (popped : List Clock) (q : List Job) (cl : Cluster)
    (ev rest : List (Clock × Event)) (t : Clock) (j : Job)
    (hend : ¬ (s.events = [] ∧ s.queue = []))
    (hdr : drain sched s.clock s.queue s.cluster s.events = some (q, cl, ev))
    (hpop : popMin ev = some ((t, Event.newJob j), rest)) :
    runF sched (fuel + 1) s popped
      = runF sched fuel ⟨rest, q ++ [j], cl, t⟩ (popped ++ [t]) := by
  simp [runF, hend, hdr, hpop]

lemma runF_step_fin (sched : Clock → List Job → Cluster → Option (Option Nat))
    (fuel : Nat) (s : EngState) (popped : List Clock) (q : List Job) (cl : Cluster)
    (ev rest : List (Clock × Event)) (t : Clock) (i : Nat)
    (hend : ¬ (s.events = [] ∧ s.queue = []))
    (hdr : drain sched s.clock s.queue s.cluster s.events = some (q, cl, ev))
    (hpop : popMin ev = some ((t, Event.jobFinished i), rest)) :
    runF sched (fuel + 1) s popped
      = runF sched fuel ⟨rest, q, cl.finish_job i, t⟩ (popped ++ [t]) := by
  simp [runF, hend, hdr, hpop]

/-- The fuelled main loop, started with more fuel than the measure and in an
invariant state, finishes (no panic, no fuel exhaustion) with an empty
pending queue and a non-decreasing popped-timestamp trace starting no
earlier than the current clock. -/
lemma runF_spec (sched : Clock → List Job → Cluster → Option (Option Nat))
    (hs : SchedOK sched) :
    ∀ (fuel : Nat) (s : EngState) (popped : List Clock), Inv s →
      engineMeasure s < fuel →
      ∃ s' suf, runF sched fuel s popped = .finished s' (popped ++ suf) ∧
        s'.queue = [] ∧ List.Chain' (· ≤ ·) (s.clock :: suf) := by
  intro fuel
  induction fuel with
  | zero =>
    intro s popped _ h
    exact absurd h (Nat.not_lt_zero _)
  | succ fuel ih =>
    intro s popped hinv hmeas
    by_cases hend : s.events = [] ∧ s.queue = []
    · refine ⟨s, [], ?_, hend.2, ?_⟩
      · rw [List.append_nil]
        exact runF_done sched fuel s popped hend
      · simp
    · obtain ⟨q, cl, ev, hdr, hinv', hmeq, ⟨added, hadd⟩, hne1⟩ :=
        drain_spec sched hs s.queue.length s.queue (Nat.le_refl _)
          s.cluster s.events s.clock hinv
      have hevne : ev ≠ [] := by
        by_cases hse : s.events = []
        · have hqne : s.queue ≠ [] := fun h => hend ⟨hse, h⟩
          exact hne1 hqne hse
        · intro hc
          apply hse
          rw [hadd] at hc
          exact (List.append_eq_nil.mp hc).1
      obtain ⟨m, rest, hpop, hpperm, hmin⟩ := popMin_spec ev hevne
      obtain ⟨t, e⟩ := m
      have hclk' : ∀ te ∈ ev, s.clock ≤ te.1 := hinv'.clock_le
      have hclkt : s.clock ≤ t := hclk' (t, e) (hpperm.subset (List.mem_cons_self _ _))
      cases e with
      | newJob j =>
        have hinv2 : Inv ⟨rest, q ++ [j], cl, t⟩ := inv_pop_newJob hinv' hpperm hmin
        have hmeas2 : engineMeasure ⟨rest, q ++ [j], cl, t⟩ < fuel := by
          have hlen1 : (newJobs rest).length + 1 = (newJobs ev).length := by
            have h := (newJobs_perm hpperm).length_eq
            simpa [newJobs_cons_new] using h
          have hlen2 : (finishedIds rest).length = (finishedIds ev).length := by
            have h := (finishedIds_perm hpperm).length_eq
            rw [finishedIds_cons_new] at h
            exact h
          have hm : 2 * (newJobs ev).length + (finishedIds ev).length + q.length
              = 2 * (newJobs s.events).length + (finishedIds s.events).length
                + s.queue.length := hmeq
          have hms : 2 * (newJobs s.events).length + (finishedIds s.events).length
              + s.queue.length < fuel + 1 := hmeas
          show 2 * (newJobs rest).length + (finishedIds rest).length
              + (q ++ [j]).length < fuel
          rw [List.length_append]
          simp only [List.length_singleton]
          omega
        obtain ⟨s', suf, hrun, hq', hchain⟩ :=
          ih ⟨rest, q ++ [j], cl, t⟩ (popped ++ [t]) hinv2 hmeas2
        refine ⟨s', t :: suf, ?_, hq', ?_⟩
        · rw [runF_step_new sched fuel s popped q cl ev rest t j hend hdr hpop, hrun,
            List.append_assoc]
          rfl
        · exact List.chain'_cons.mpr ⟨hclkt, hchain⟩
      | jobFinished i =>
        have hinv2 : Inv ⟨rest, q, cl.finish_job i, t⟩ := inv_pop_finished hinv' hpperm hmin
        have hmeas2 : engineMeasure ⟨rest, q, cl.finish_job i, t⟩ < fuel := by
          have hlen1 : (newJobs rest).length = (newJobs ev).length := by
            have h := (newJobs_perm hpperm).length_eq
            rw [newJobs_cons_fin] at h
            exact h
          have hlen2 : (finishedIds rest).length + 1 = (finishedIds ev).length := by
            have h := (finishedIds_perm hpperm).length_eq
            simpa [finishedIds_cons_fin] using h
          have hm : 2 * (newJobs ev).length + (finishedIds ev).length + q.length
              = 2 * (newJobs s.events).length + (finishedIds s.events).length
                + s.queue.length := hmeq
          have hms : 2 * (newJobs s.events).length + (finishedIds s.events).length
              + s.queue.length < fuel + 1 := hmeas
          show 2 * (newJobs rest).length + (finishedIds rest).length + q.length < fuel
          omega
        obtain ⟨s', suf, hrun, hq', hchain⟩ :=
          ih ⟨rest, q, cl.finish_job i, t⟩ (popped ++ [t]) hinv2 hmeas2
        refine ⟨s', t :: suf, ?_, hq', ?_⟩
        · rw [runF_step_fin sched fuel s popped q cl ev rest t i hend hdr hpop, hrun,
            List.append_assoc]
          rfl
        · exact List.chain'_cons.mpr ⟨hclkt, hchain⟩

/-- The loop invariant holds in the initial state of a well-formed load. -/
lemma inv_init (total : Nat) (ev : List (Clock × Event))
    (hwf : WellFormedLoad total ev) : Inv (initState total ev) := by
  obtain ⟨hfin, hfit, hnodup⟩ := hwf
  refine ⟨?_, ?_, ?_, ?_, ?_, ?_⟩
  · show total + sumNodes [] = total
    simp [sumNodes]
  · show (([] : List Job).map Job.id ++ (newJobs ev).map Job.id
      ++ ([] : List Job).map Job.id).Nodup
    simpa using hnodup
  · show (finishedIds ev).Perm (([] : List Job).map Job.id)
    rw [hfin]
    rfl
  · show ∀ j ∈ ([] : List Job), j.nodes ≤ total
    simp
  · show ∀ j ∈ newJobs ev, j.nodes ≤ total
    exact hfit
  · show ∀ te ∈ ev, 0 ≤ te.1
    intro te _
    exact Nat.zero_le _

/-- FCFS satisfies the policy contract the engine needs. -/
lemma fcfs_schedOK : SchedOK FCFS_schedule := by
  refine ⟨?_, ?_, ?_⟩
  · intro c q cl hq
    match q with
    | [] => exact absurd rfl hq
    | first :: rest => simp [FCFS_schedule]
  · intro c q cl i h
    match q with
    | [] => simp [FCFS_schedule] at h
    | first :: rest =>
      simp only [FCFS_schedule, Option.some.injEq] at h
      by_cases hfit : first.nodes ≤ cl.available_nodes
      · rw [if_pos hfit] at h
        obtain rfl : (0 : Nat) = i := Option.some.inj h
        exact ⟨Nat.succ_pos _, hfit⟩
      · rw [if_neg hfit] at h
        simp at h
  · intro c q cl hq havail hfitall
    match q with
    | [] => exact absurd rfl hq
    | first :: rest =>
      have hfit : first.nodes ≤ cl.available_nodes := by
        rw [havail]
        exact hfitall first (List.mem_cons_self _ _)
      simp [FCFS_schedule, if_pos hfit]

/-- C6 (confirmed): for every well-formed finite load (only arrival events,
distinct job ids, every job fits the cluster) and every policy satisfying
the engine's contract (no panic on a non-empty queue, valid fitting
indices, progress on an idle cluster — FCFS satisfies it), the engine's
main loop terminates within `engineMeasure + 1` iterations — neither
panicking nor running out of fuel — with an empty pending queue, and the
timestamps of the popped events are non-decreasing. -/
theorem C6_engine_termination (sched : Clock → List Job → Cluster → Option (Option Nat))
    (total : Nat) (ev : List (Clock × Event))
    (hs : SchedOK sched) (hwf : WellFormedLoad total ev) :
    ∃ s' suf, runF sched (engineMeasure (initState total ev) + 1)
        (initState total ev) [] = .finished s' suf ∧
      s'.queue = [] ∧ List.Chain' (· ≤ ·) suf := by
  obtain ⟨s', suf, hrun, hq, hchain⟩ := runF_spec sched hs
    (engineMeasure (initState total ev) + 1) (initState total ev) []
    (inv_init total ev hwf) (Nat.lt_succ_self _)
  refine ⟨s', suf, ?_, hq, hchain.tail⟩
  simpa using hrun

/-- C6 witness: the engine run to completion with the FCFS policy on a
concrete one-job trace over a 4-node cluster. -/
theorem C6_engine_termination_witness :
    ∃ s' suf, runF FCFS_schedule
        (engineMeasure (initState 4 [(0, Event.newJob (Job.new 1 2 0 3 3))]) + 1)
        (initState 4 [(0, Event.newJob (Job.new 1 2 0 3 3))]) [] = .finished s' suf ∧
      s'.queue = [] ∧ List.Chain' (· ≤ ·) suf :=
  C6_engine_termination FCFS_schedule 4 [(0, Event.newJob (Job.new 1 2 0 3 3))]
    fcfs_schedOK ⟨rfl, by decide, by decide⟩

end M2Ord
